import Mathlib

/-!
Shallow embedding of the Othello engine in `game-engine.py`:
the board logic (`OthelloLogic`) and the search agent (`OthelloAI`).
Pygame presentation classes (`Button`, `MenuScreen`, `OthelloGame`) are UI
only and are not modelled.

Boards are total functions `Fin 8 → Fin 8 → Cell`; the Python code indexes
with machine integers and guards every access with `is_valid_bounds`, which
is mirrored by `cellZ` (out-of-range reads never happen in guarded code, the
`Cell.empty` default is never observable).  The `while` loop in `get_flips`
is embedded as the fuel-based `walkRun`; fuel 8 is enough because a ray from
an in-bounds origin leaves the 8×8 board after at most 7 steps.
-/

/-- Players, `BLACK = "B"` and `WHITE = "W"` in the source. -/
inductive Player
  | black
  | white
deriving DecidableEq, Repr

/-- Cells of the grid: `EMPTY = None` or a player's piece. -/
inductive Cell
  | empty
  | occ (p : Player)
deriving DecidableEq, Repr

/-- `OthelloLogic.get_opponent`. -/
def Player.opponent : Player → Player
  | .black => .white
  | .white => .black

/-- An 8×8 board of cells (`self.board`, `BOARD_SIZE = 8`). -/
abbrev Board := Fin 8 → Fin 8 → Cell

/-- The 8 ray `DIRECTIONS` (4 cardinals then 4 diagonals), in source order. -/
def directions : List (ℤ × ℤ) :=
  [(-1, 0), (1, 0), (0, -1), (0, 1), (-1, -1), (-1, 1), (1, -1), (1, 1)]

/-- `OthelloLogic.is_valid_bounds`: `0 <= r < BOARD_SIZE and 0 <= c < BOARD_SIZE`. -/
def isValidBounds (r c : ℤ) : Prop :=
  0 ≤ r ∧ r < 8 ∧ 0 ≤ c ∧ c < 8

instance (r c : ℤ) : Decidable (isValidBounds r c) := by
  unfold isValidBounds; infer_instance

theorem isValidBounds_def (r c : ℤ) :
    isValidBounds r c ↔ 0 ≤ r ∧ r < 8 ∧ 0 ≤ c ∧ c < 8 := Iff.rfl

/-- Reading `self.board[r][c]` with integer coordinates; every read in the
source is guarded by `is_valid_bounds`, so the out-of-range default is never
observable. -/
def cellZ (b : Board) (r c : ℤ) : Cell :=
  if h : isValidBounds r c then
    b ⟨r.toNat, by obtain ⟨h1, h2, h3, h4⟩ := h; omega⟩
      ⟨c.toNat, by obtain ⟨h1, h2, h3, h4⟩ := h; omega⟩
  else Cell.empty

/-- Writing `self.board[r][c] = v` with integer coordinates. -/
def setZ (b : Board) (r c : ℤ) (v : Cell) : Board :=
  fun i j => if (i : ℤ) = r ∧ (j : ℤ) = c then v else b i j

/-- The `while` loop inside `OthelloLogic.get_flips`: starting at `(r, c)`,
keep stepping by `(dr, dc)` while the position is in bounds and holds an
`opponent` piece, collecting the visited positions (`potential_flips`); also
returns the final position `(curr_r, curr_c)` where the walk stopped.
`fuel` bounds the iteration count; 8 is always enough (see `walkRun_spec`). -/
def walkRun (b : Board) (opponent : Player) (dr dc : ℤ) :
    ℤ → ℤ → ℕ → List (ℤ × ℤ) × ℤ × ℤ
  | r, c, 0 => ([], r, c)
  | r, c, fuel + 1 =>
    if isValidBounds r c ∧ cellZ b r c = Cell.occ opponent then
      let rest := walkRun b opponent dr dc (r + dr) (c + dc) fuel
      ((r, c) :: rest.1, rest.2)
    else ([], r, c)

/-- One direction's contribution in `OthelloLogic.get_flips`: the collected
run counts only if the walk ended in bounds on one of `player`'s own pieces. -/
def flipsInDir (b : Board) (player : Player) (r c dr dc : ℤ) : List (ℤ × ℤ) :=
  let w := walkRun b player.opponent dr dc (r + dr) (c + dc) 8
  if isValidBounds w.2.1 w.2.2 ∧ cellZ b w.2.1 w.2.2 = Cell.occ player then w.1
  else []

/-- `OthelloLogic.get_flips`. -/
def get_flips (b : Board) (r c : ℤ) (player : Player) : List (ℤ × ℤ) :=
  if ¬ isValidBounds r c ∨ cellZ b r c ≠ Cell.empty then []
  else directions.flatMap fun d => flipsInDir b player r c d.1 d.2

/-- `OthelloLogic.is_valid_move`: `bool(self.get_flips(r, c, player))`. -/
def is_valid_move (b : Board) (r c : ℤ) (player : Player) : Prop :=
  get_flips b r c player ≠ []

instance (b : Board) (r c : ℤ) (player : Player) :
    Decidable (is_valid_move b r c player) := by
  unfold is_valid_move; infer_instance

/-- `OthelloLogic.get_valid_moves`: row-major scan of the grid. -/
def get_valid_moves (b : Board) (player : Player) : List (ℤ × ℤ) :=
  (List.range 8).flatMap fun r =>
    (List.range 8).filterMap fun c =>
      if is_valid_move b (r : ℤ) (c : ℤ) player then some ((r : ℤ), (c : ℤ))
      else none

/-- `OthelloLogic.make_move`: place at `(r, c)` and flip the captured runs;
returns `false` (and the unchanged board) when there is nothing to flip. -/
def make_move (b : Board) (r c : ℤ) (player : Player) : Bool × Board :=
  let flips := get_flips b r c player
  if flips = [] then (false, b)
  else
    (true,
      flips.foldl (fun bd q => setZ bd q.1 q.2 (Cell.occ player))
        (setZ b r c (Cell.occ player)))

/-- `OthelloLogic.get_score`: `(black count, white count)` over the rows. -/
def get_score (b : Board) : ℕ × ℕ :=
  (((List.finRange 8).map fun r =>
      (List.finRange 8).countP fun c => decide (b r c = Cell.occ Player.black)).sum,
   ((List.finRange 8).map fun r =>
      (List.finRange 8).countP fun c => decide (b r c = Cell.occ Player.white)).sum)

/-- `OthelloLogic.is_game_over`: neither player can move. -/
def is_game_over (b : Board) : Prop :=
  get_valid_moves b Player.black = [] ∧ get_valid_moves b Player.white = []

instance (b : Board) : Decidable (is_game_over b) := by
  unfold is_game_over; infer_instance

/-- The board set up by `OthelloLogic.__init__` / `initialize_board`:
all empty except the central 2×2 block (`mid = 4`): white at `(3,3)` and
`(4,4)`, black at `(3,4)` and `(4,3)`. -/
def initial_board : Board := fun r c =>
  if r = 3 ∧ c = 3 then Cell.occ Player.white
  else if r = 3 ∧ c = 4 then Cell.occ Player.black
  else if r = 4 ∧ c = 3 then Cell.occ Player.black
  else if r = 4 ∧ c = 4 then Cell.occ Player.white
  else Cell.empty

/-- The mutable state of an `OthelloLogic` object: the grid plus
`self.current_player` (`make_move` touches only the grid). -/
structure OthelloState where
  board : Board
  current_player : Player
deriving DecidableEq

/-- `OthelloLogic.make_move` acting on the full object state: the source
method mutates `self.board` only and never reads or writes
`self.current_player`. -/
def make_move_st (s : OthelloState) (r c : ℤ) (player : Player) :
    Bool × OthelloState :=
  let res := make_move s.board r c player
  (res.1, { s with board := res.2 })

/-!
The `OthelloAI` class.  Python's `float("-inf")` / `float("inf")` search
bounds are embedded as `⊥` / `⊤` of `WithBot (WithTop ℤ)`: every heuristic
value is an integer and the code only ever compares and takes max/min of
scores, so the extended integers model the float arithmetic exactly.
-/

/-- Score values: integers extended with `⊥ = float("-inf")` and
`⊤ = float("inf")`. -/
abbrev V : Type := WithBot (WithTop ℤ)

/-- Embedding an integer score into `V`. -/
def toV (z : ℤ) : V := ((z : WithTop ℤ) : V)

/-- The positional weight matrix `OthelloAI.WEIGHTS`, row by row. -/
def WEIGHTS_TABLE : List (List ℤ) :=
  [[100, -20, 10, 5, 5, 10, -20, 100],
   [-20, -50, -2, -2, -2, -2, -50, -20],
   [10, -2, 5, 1, 1, 5, -2, 10],
   [5, -2, 1, 0, 0, 1, -2, 5],
   [5, -2, 1, 0, 0, 1, -2, 5],
   [10, -2, 5, 1, 1, 5, -2, 10],
   [-20, -50, -2, -2, -2, -2, -50, -20],
   [100, -20, 10, 5, 5, 10, -20, 100]]

/-- `self.WEIGHTS[r][c]`. -/
def WEIGHTS (r c : Fin 8) : ℤ :=
  ((WEIGHTS_TABLE.getD r []).getD c 0)

/-- An `OthelloAI` object: its side and difficulty tier. -/
structure OthelloAI where
  player : Player
  difficulty : ℕ
deriving DecidableEq

/-- `self.depth = 3 if difficulty == 3 else 1`. -/
def OthelloAI.depth (ai : OthelloAI) : ℕ :=
  if ai.difficulty = 3 then 3 else 1

/-- `OthelloAI.evaluate`: the positional score, summed by the row-major
double loop, adding the weight on own pieces and subtracting it on the
opponent's. -/
def OthelloAI.evaluate (ai : OthelloAI) (b : Board) : ℤ :=
  (List.finRange 8).foldl
    (fun score r =>
      (List.finRange 8).foldl
        (fun score c =>
          if b r c = Cell.occ ai.player then score + WEIGHTS r c
          else if b r c = Cell.occ ai.player.opponent then score - WEIGHTS r c
          else score)
        score)
    0

/-- The maximizing branch's `for` loop in `OthelloAI.minimax`: `recur` is
the depth-decremented recursive call (with `is_maximizing = False`),
`maxEval` accumulates `max_eval`, and the loop breaks on `beta <= alpha`
after `alpha = max(alpha, eval)`. -/
def abMaxGo (recur : Board → V → V → V) (b : Board) (player : Player) :
    List (ℤ × ℤ) → V → V → V → V
  | [], maxEval, _, _ => maxEval
  | (r, c) :: ms, maxEval, α, β =>
    let child := (make_move b r c player).2
    let e := recur child α β
    let maxEval' := max maxEval e
    let α' := max α e
    if β ≤ α' then maxEval' else abMaxGo recur b player ms maxEval' α' β

/-- The minimizing branch's `for` loop in `OthelloAI.minimax`. -/
def abMinGo (recur : Board → V → V → V) (b : Board) (player : Player) :
    List (ℤ × ℤ) → V → V → V → V
  | [], minEval, _, _ => minEval
  | (r, c) :: ms, minEval, α, β =>
    let child := (make_move b r c player).2
    let e := recur child α β
    let minEval' := min minEval e
    let β' := min β e
    if β' ≤ α then minEval' else abMinGo recur b player ms minEval' α β'

/-- `OthelloAI.minimax`: depth-bounded alpha-beta search.  Depth 0 and
terminal positions return the static evaluation; a player with no legal
moves passes, consuming one depth unit. -/
def OthelloAI.minimax (ai : OthelloAI) : ℕ → Board → Bool → V → V → V
  | 0, b, _, _, _ => toV (ai.evaluate b)
  | d + 1, b, isMax, α, β =>
    if is_game_over b then toV (ai.evaluate b)
    else
      let player := if isMax then ai.player else ai.player.opponent
      match get_valid_moves b player with
      | [] => OthelloAI.minimax ai d b (!isMax) α β
      | m :: ms =>
        if isMax then
          abMaxGo (fun bd a b' => OthelloAI.minimax ai d bd false a b') b player
            (m :: ms) ⊥ α β
        else
          abMinGo (fun bd a b' => OthelloAI.minimax ai d bd true a b') b player
            (m :: ms) ⊤ α β

/-- The root loop of `OthelloAI.minimax_root`: each candidate is scored by
`minimax(..., self.depth - 1, False, float("-inf"), float("inf"))` and the
best move is replaced only on strict improvement (`score > best_score`). -/
def rootGo (ai : OthelloAI) (b : Board) :
    List (ℤ × ℤ) → V → (ℤ × ℤ) → (ℤ × ℤ)
  | [], _, best => best
  | (r, c) :: ms, bestScore, best =>
    let child := (make_move b r c ai.player).2
    let score := OthelloAI.minimax ai (ai.depth - 1) child false ⊥ ⊤
    if bestScore < score then rootGo ai b ms score (r, c)
    else rootGo ai b ms bestScore best

/-- `OthelloAI.minimax_root`: `best_score = float("-inf")`,
`best_move = moves[0]`, then the root loop. -/
def OthelloAI.minimax_root (ai : OthelloAI) (b : Board)
    (moves : List (ℤ × ℤ)) : ℤ × ℤ :=
  rootGo ai b moves ⊥ (moves.headD (0, 0))

/-- The greedy tier's loop in `OthelloAI.get_best_move`: track the move
with the strictly largest immediate flip count (`max_flipped` starts at
`-1`, so the first candidate always wins the comparison). -/
def greedyGo (b : Board) (player : Player) :
    List (ℤ × ℤ) → (ℤ × ℤ) → ℤ → (ℤ × ℤ)
  | [], best, _ => best
  | (r, c) :: ms, best, maxFlipped =>
    let flips : ℤ := (get_flips b r c player).length
    if flips > maxFlipped then greedyGo b player ms (r, c) flips
    else greedyGo b player ms best maxFlipped

/-- `OthelloAI.get_best_move`: `None` when the agent has no legal move,
otherwise dispatch on the difficulty tier.  Tier 1 (`random.choice`) draws
from a PRNG and is outside this deterministic model; the claims below only
concern tiers 2 (greedy) and 3 (minimax). -/
def OthelloAI.get_best_move (ai : OthelloAI) (b : Board) : Option (ℤ × ℤ) :=
  match get_valid_moves b ai.player with
  | [] => none
  | m :: ms =>
    if ai.difficulty = 2 then some (greedyGo b ai.player (m :: ms) m (-1))
    else if ai.difficulty = 3 then some (ai.minimax_root b (m :: ms))
    else none

/-!
Spec-side definitions.  These follow the specification's words, and the
theorems below compare them with the code-derived definitions above.
-/

/-- From the spec: exhaustive (unpruned) minimax at the same depth, with the
same pass rule and the same static evaluator — maximizing nodes fold `max`
over all children, minimizing nodes fold `min`, nothing is cut off. -/
def plain_minimax (ai : OthelloAI) : ℕ → Board → Bool → V
  | 0, b, _ => toV (ai.evaluate b)
  | d + 1, b, isMax =>
    if is_game_over b then toV (ai.evaluate b)
    else
      let player := if isMax then ai.player else ai.player.opponent
      match get_valid_moves b player with
      | [] => plain_minimax ai d b (!isMax)
      | m :: ms =>
        if isMax then
          (((m :: ms).map fun q =>
              plain_minimax ai d (make_move b q.1 q.2 player).2 false).foldl
            max ⊥)
        else
          (((m :: ms).map fun q =>
              plain_minimax ai d (make_move b q.1 q.2 player).2 true).foldl
            min ⊤)

/-- From the spec: the exhaustive root — score every candidate with
exhaustive minimax one ply down and keep the first strict improvement. -/
def plain_rootGo (ai : OthelloAI) (b : Board) :
    List (ℤ × ℤ) → V → (ℤ × ℤ) → (ℤ × ℤ)
  | [], _, best => best
  | (r, c) :: ms, bestScore, best =>
    let score := plain_minimax ai (ai.depth - 1) (make_move b r c ai.player).2 false
    if bestScore < score then plain_rootGo ai b ms score (r, c)
    else plain_rootGo ai b ms bestScore best

/-- From the spec: the root of exhaustive minimax. -/
def plain_minimax_root (ai : OthelloAI) (b : Board)
    (moves : List (ℤ × ℤ)) : ℤ × ℤ :=
  plain_rootGo ai b moves ⊥ (moves.headD (0, 0))

/-- From the spec (C9): the root loop with root-level alpha-beta — alpha is
tightened after each candidate, each candidate being scored by one ply of
minimax on the opponent's turn at depth D−1; the best move is replaced only
on strict improvement. -/
def choose_rootGo (ai : OthelloAI) (b : Board) :
    List (ℤ × ℤ) → V → (ℤ × ℤ) → V → (ℤ × ℤ)
  | [], _, best, _ => best
  | (r, c) :: ms, bestScore, best, α =>
    let score :=
      OthelloAI.minimax ai (ai.depth - 1) (make_move b r c ai.player).2 false α ⊤
    if bestScore < score then choose_rootGo ai b ms score (r, c) (max α score)
    else choose_rootGo ai b ms bestScore best (max α score)

/-- From the spec (C9): `choose_move` for the minimax tier — `none` exactly
when the agent's player has zero legal moves, otherwise the root loop with
alpha tightening over the legal moves in deterministic order. -/
def choose_move_spec (ai : OthelloAI) (b : Board) : Option (ℤ × ℤ) :=
  match get_valid_moves b ai.player with
  | [] => none
  | m :: ms => some (choose_rootGo ai b (m :: ms) ⊥ m ⊥)

/-- From the spec: the positional score — the sum over all cells of the
weight-matrix value, added for agent-occupied cells, subtracted for
opponent-occupied cells, ignored for empty cells. -/
def positional_score (p : Player) (b : Board) : ℤ :=
  ∑ r : Fin 8, ∑ c : Fin 8,
    (if b r c = Cell.occ p then WEIGHTS r c
     else if b r c = Cell.occ p.opponent then -WEIGHTS r c
     else 0)

/-- From the spec: the number of cells holding a `p` piece. -/
def piece_count (b : Board) (p : Player) : ℕ :=
  ((List.finRange 8).map fun r =>
    (List.finRange 8).countP fun c => decide (b r c = Cell.occ p)).sum

/-- From the spec: the number of empty cells. -/
def empty_count (b : Board) : ℕ :=
  ((List.finRange 8).map fun r =>
    (List.finRange 8).countP fun c => decide (b r c = Cell.empty)).sum

/-- From the spec: the number of occupied cells. -/
def occupied_count (b : Board) : ℕ :=
  (Finset.univ.filter fun ij : Fin 8 × Fin 8 => b ij.1 ij.2 ≠ Cell.empty).card

/-- From the spec (C1): the claimed static evaluation — material
differential × 10, plus the positional score, plus mobility differential
× 5, all from the agent's own-player perspective. -/
def claimed_evaluation (p : Player) (b : Board) : ℤ :=
  10 * ((piece_count b p : ℤ) - (piece_count b p.opponent : ℤ))
    + positional_score p b
    + 5 * (((get_valid_moves b p).length : ℤ)
        - ((get_valid_moves b p.opponent).length : ℤ))

/-- From the spec (C2): direction `(dr, dc)` brackets for `player` at
`(r, c)`: walking from `(r, c)`, one meets `k ≥ 1` consecutive opponent
pieces (steps `1 .. k`, each in bounds) immediately followed, in bounds, by
a `player` piece at step `k + 1`. -/
def bracketsInDir (b : Board) (player : Player) (r c dr dc : ℤ) : Prop :=
  ∃ k : ℕ, 1 ≤ k ∧
    (∀ i : ℕ, 1 ≤ i → i ≤ k →
      isValidBounds (r + i * dr) (c + i * dc) ∧
      cellZ b (r + i * dr) (c + i * dc) = Cell.occ player.opponent) ∧
    isValidBounds (r + (k + 1) * dr) (c + (k + 1) * dc) ∧
    cellZ b (r + (k + 1) * dr) (c + (k + 1) * dc) = Cell.occ player

/-!
Alpha-beta pruning correctness.  The key invariant is the classic fail-soft
one, expressed through clamping: inside a window `α < β`, the pruned value
and the exhaustive value agree after clamping into `[α, β]`.
-/

/-- Clamp a score into the window `[α, β]`. -/
def clampV (α β x : V) : V := max α (min β x)

theorem clampV_bot_top (x : V) : clampV ⊥ ⊤ x = x := by
  simp [clampV]

theorem le_foldl_max (l : List V) : ∀ a : V, a ≤ l.foldl max a := by
  induction l with
  | nil => intro a; exact le_refl a
  | cons x xs ih => intro a; exact le_trans (le_max_left a x) (ih (max a x))

theorem foldl_min_le (l : List V) : ∀ a : V, l.foldl min a ≤ a := by
  induction l with
  | nil => intro a; exact le_refl a
  | cons x xs ih => intro a; exact le_trans (ih (min a x)) (min_le_left a x)

theorem foldl_max_init (l : List V) :
    ∀ a : V, l.foldl max a = max a (l.foldl max ⊥) := by
  induction l with
  | nil => intro a; simp
  | cons x xs ih =>
    intro a
    simp only [List.foldl_cons]
    rw [ih (max a x), ih (max ⊥ x), max_eq_right (bot_le : (⊥ : V) ≤ x),
      max_assoc]

theorem foldl_min_init (l : List V) :
    ∀ a : V, l.foldl min a = min a (l.foldl min ⊤) := by
  induction l with
  | nil => intro a; simp
  | cons x xs ih =>
    intro a
    simp only [List.foldl_cons]
    rw [ih (min a x), ih (min ⊤ x), min_eq_right (le_top : x ≤ (⊤ : V)),
      min_assoc]

theorem clampV_foldl_max (l : List V) (a₁ a₂ α β : V)
    (h1 : a₁ ≤ α) (h2 : a₂ ≤ α) (hαβ : α ≤ β) :
    clampV α β (l.foldl max a₁) = clampV α β (l.foldl max a₂) := by
  have key : ∀ a : V, a ≤ α →
      clampV α β (l.foldl max a) = max α (min β (l.foldl max ⊥)) := by
    intro a ha
    rw [foldl_max_init, clampV, min_max_distrib_left,
      min_eq_right (le_trans ha hαβ), ← max_assoc, max_eq_left ha]
  rw [key a₁ h1, key a₂ h2]

theorem clampV_foldl_min (l : List V) (a₁ a₂ α β : V)
    (h1 : β ≤ a₁) (h2 : β ≤ a₂) :
    clampV α β (l.foldl min a₁) = clampV α β (l.foldl min a₂) := by
  have key : ∀ a : V, β ≤ a →
      clampV α β (l.foldl min a) = max α (min β (l.foldl min ⊤)) := by
    intro a ha
    rw [foldl_min_init, clampV, ← min_assoc, min_eq_left ha]
  rw [key a₁ h1, key a₂ h2]

theorem le_abMaxGo (recur : Board → V → V → V) (b : Board) (player : Player) :
    ∀ (ms : List (ℤ × ℤ)) (acc α β : V),
      acc ≤ abMaxGo recur b player ms acc α β := by
  intro ms
  induction ms with
  | nil => intro acc α β; exact le_refl acc
  | cons m ms ih =>
    intro acc α β
    obtain ⟨r, c⟩ := m
    simp only [abMaxGo]
    split
    · exact le_max_left _ _
    · exact le_trans (le_max_left _ _) (ih _ _ _)

theorem abMinGo_le (recur : Board → V → V → V) (b : Board) (player : Player) :
    ∀ (ms : List (ℤ × ℤ)) (acc α β : V),
      abMinGo recur b player ms acc α β ≤ acc := by
  intro ms
  induction ms with
  | nil => intro acc α β; exact le_refl acc
  | cons m ms ih =>
    intro acc α β
    obtain ⟨r, c⟩ := m
    simp only [abMinGo]
    split
    · exact min_le_left _ _
    · exact le_trans (ih _ _ _) (min_le_left _ _)

theorem clampV_of_ge {α β v : V} (hαβ : α < β) (h : β ≤ v) :
    clampV α β v = β := by
  rw [clampV, min_eq_left h, max_eq_right hαβ.le]

theorem clampV_of_le {α β v : V} (hαβ : α < β) (h : v ≤ α) :
    clampV α β v = α := by
  rw [clampV, min_eq_right (h.trans hαβ.le), max_eq_left h]

theorem clampV_of_mid {α β v : V} (hα : α ≤ v) (hβ : v ≤ β) :
    clampV α β v = v := by
  rw [clampV, min_eq_right hβ, max_eq_right hα]

theorem clampV_eq_right {α β v : V} (hαβ : α < β) (h : clampV α β v = β) :
    β ≤ v := by
  have hm : min β v = β := by
    rcases le_total (min β v) α with h' | h'
    · rw [clampV, max_eq_left h'] at h
      exact absurd h hαβ.ne
    · rw [clampV, max_eq_right h'] at h
      exact h
  exact min_eq_left_iff.mp hm

theorem clampV_eq_left {α β v : V} (hαβ : α < β) (h : clampV α β v = α) :
    v ≤ α := by
  have hm : min β v ≤ α := by
    rw [clampV] at h
    exact max_eq_left_iff.mp h
  rcases le_or_lt v α with h' | h'
  · exact h'
  · exact absurd hm (not_le.mpr (lt_min hαβ h'))

theorem clampV_eq_mid {α β v e : V} (hα : α < e) (hβ : e < β)
    (h : clampV α β v = e) : v = e := by
  have hm : min β v = e := by
    rcases le_total (min β v) α with h' | h'
    · rw [clampV, max_eq_left h'] at h
      exact absurd h hα.ne
    · rw [clampV, max_eq_right h'] at h
      exact h
  rcases le_total β v with h' | h'
  · rw [min_eq_left h'] at hm
    exact absurd hm hβ.ne'
  · rwa [min_eq_right h'] at hm

theorem abMaxGo_clamp (recur : Board → V → V → V) (g : ℤ × ℤ → V)
    (b : Board) (player : Player) :
    ∀ (ms : List (ℤ × ℤ)) (acc α β : V), acc ≤ α → α < β →
      (∀ q ∈ ms, ∀ α' β' : V, α' < β' →
        clampV α' β' (recur (make_move b q.1 q.2 player).2 α' β') =
          clampV α' β' (g q)) →
      clampV α β (abMaxGo recur b player ms acc α β) =
        clampV α β ((ms.map g).foldl max acc) := by
  intro ms
  induction ms with
  | nil => intro acc α β _ _ _; rfl
  | cons m ms ih =>
    rintro acc α β hacc hαβ hrec
    obtain ⟨r, c⟩ := m
    simp only [abMaxGo, List.map_cons, List.foldl_cons]
    have H := hrec (r, c) (List.mem_cons_self _ _) α β hαβ
    dsimp only at H
    set e := recur (make_move b r c player).2 α β with hedef
    set v := g (r, c) with hvdef
    by_cases hc : β ≤ max α e
    · rw [if_pos hc]
      have heβ : β ≤ e := by
        rcases le_or_lt β e with h | h
        · exact h
        · exact absurd hc (not_le.mpr (max_lt hαβ h))
      have hvβ : β ≤ v := clampV_eq_right hαβ (by rw [← H, clampV_of_ge hαβ heβ])
      rw [clampV_of_ge hαβ (heβ.trans (le_max_right acc e)),
        clampV_of_ge hαβ ((hvβ.trans (le_max_right acc v)).trans
          (le_foldl_max _ _))]
    · rw [if_neg hc]
      push_neg at hc
      by_cases he' : e ≤ α
      · have hvα : v ≤ α := clampV_eq_left hαβ (by rw [← H, clampV_of_le hαβ he'])
        rw [max_eq_left he']
        rw [ih (max acc e) α β (max_le hacc he') hαβ
          (fun q hq => hrec q (List.mem_cons_of_mem _ hq))]
        exact clampV_foldl_max (ms.map g) (max acc e) (max acc v) α β
          (max_le hacc he') (max_le hacc hvα) hαβ.le
      · push_neg at he'
        have heβ' : e < β := lt_of_le_of_lt (le_max_right α e) hc
        have hve : v = e :=
          clampV_eq_mid he' heβ' (by rw [← H, clampV_of_mid he'.le heβ'.le])
        have hα' : max α e = e := max_eq_right he'.le
        have hacc' : max acc e = e := max_eq_right (hacc.trans he'.le)
        rw [hα', hacc', hve, hacc']
        have IH := ih e e β (le_refl e) heβ'
          (fun q hq => hrec q (List.mem_cons_of_mem _ hq))
        have hL : e ≤ abMaxGo recur b player ms e e β := le_abMaxGo _ _ _ _ _ _ _
        have hF : e ≤ (ms.map g).foldl max e := le_foldl_max _ _
        have transfer : ∀ x : V, e ≤ x → clampV α β x = clampV e β x := by
          intro x hx
          rw [clampV, clampV]
          have h5 : e ≤ min β x := le_min heβ'.le hx
          rw [max_eq_right h5, max_eq_right (he'.le.trans h5)]
        rw [transfer _ hL, transfer _ hF, IH]

theorem abMinGo_clamp (recur : Board → V → V → V) (g : ℤ × ℤ → V)
    (b : Board) (player : Player) :
    ∀ (ms : List (ℤ × ℤ)) (acc α β : V), β ≤ acc → α < β →
      (∀ q ∈ ms, ∀ α' β' : V, α' < β' →
        clampV α' β' (recur (make_move b q.1 q.2 player).2 α' β') =
          clampV α' β' (g q)) →
      clampV α β (abMinGo recur b player ms acc α β) =
        clampV α β ((ms.map g).foldl min acc) := by
  intro ms
  induction ms with
  | nil => intro acc α β _ _ _; rfl
  | cons m ms ih =>
    rintro acc α β hacc hαβ hrec
    obtain ⟨r, c⟩ := m
    simp only [abMinGo, List.map_cons, List.foldl_cons]
    have H := hrec (r, c) (List.mem_cons_self _ _) α β hαβ
    dsimp only at H
    set e := recur (make_move b r c player).2 α β with hedef
    set v := g (r, c) with hvdef
    by_cases hc : min β e ≤ α
    · rw [if_pos hc]
      have heα : e ≤ α := by
        rcases le_or_lt e α with h | h
        · exact h
        · exact absurd hc (not_le.mpr (lt_min hαβ h))
      have hvα : v ≤ α := clampV_eq_left hαβ (by rw [← H, clampV_of_le hαβ heα])
      rw [clampV_of_le hαβ ((min_le_right acc e).trans heα),
        clampV_of_le hαβ ((foldl_min_le _ _).trans
          ((min_le_right acc v).trans hvα))]
    · rw [if_neg hc]
      push_neg at hc
      by_cases he' : β ≤ e
      · have hvβ : β ≤ v := clampV_eq_right hαβ (by rw [← H, clampV_of_ge hαβ he'])
        rw [min_eq_left he']
        rw [ih (min acc e) α β (le_min hacc he') hαβ
          (fun q hq => hrec q (List.mem_cons_of_mem _ hq))]
        exact clampV_foldl_min (ms.map g) (min acc e) (min acc v) α β
          (le_min hacc he') (le_min hacc hvβ)
      · push_neg at he'
        have heα' : α < e := lt_of_lt_of_le hc (min_le_right β e)
        have hve : v = e :=
          clampV_eq_mid heα' he' (by rw [← H, clampV_of_mid heα'.le he'.le])
        have hβ' : min β e = e := min_eq_right he'.le
        have hacc' : min acc e = e := min_eq_right (he'.le.trans hacc)
        rw [hβ', hacc', hve, hacc']
        have IH := ih e α e (le_refl e) heα'
          (fun q hq => hrec q (List.mem_cons_of_mem _ hq))
        have hL : abMinGo recur b player ms e α e ≤ e := abMinGo_le _ _ _ _ _ _ _
        have hF : (ms.map g).foldl min e ≤ e := foldl_min_le _ _
        have transfer : ∀ x : V, x ≤ e → clampV α β x = clampV α e x := by
          intro x hx
          rw [clampV, clampV, min_eq_right (hx.trans he'.le), min_eq_right hx]
        rw [transfer _ hL, transfer _ hF, IH]

theorem minimax_clamp (ai : OthelloAI) :
    ∀ (d : ℕ) (b : Board) (isMax : Bool) (α β : V), α < β →
      clampV α β (OthelloAI.minimax ai d b isMax α β) =
        clampV α β (plain_minimax ai d b isMax) := by
  intro d
  induction d with
  | zero => intro b isMax α β _; rfl
  | succ d ih =>
    intro b isMax α β hαβ
    cases isMax with
    | false =>
      by_cases hover : is_game_over b
      · simp only [OthelloAI.minimax, plain_minimax, if_pos hover]
      · simp only [OthelloAI.minimax, plain_minimax, if_neg hover,
          Bool.false_eq_true, if_false, Bool.not_false]
        cases hmoves : get_valid_moves b ai.player.opponent with
        | nil => exact ih b true α β hαβ
        | cons m ms =>
          exact abMinGo_clamp _ _ b ai.player.opponent (m :: ms) ⊤ α β le_top hαβ
            (fun q _ α' β' h => ih (make_move b q.1 q.2 ai.player.opponent).2 true α' β' h)
    | true =>
      by_cases hover : is_game_over b
      · simp only [OthelloAI.minimax, plain_minimax, if_pos hover]
      · simp only [OthelloAI.minimax, plain_minimax, if_neg hover, if_true,
          Bool.not_true]
        cases hmoves : get_valid_moves b ai.player with
        | nil => exact ih b false α β hαβ
        | cons m ms =>
          exact abMaxGo_clamp _ _ b ai.player (m :: ms) ⊥ α β bot_le hαβ
            (fun q _ α' β' h => ih (make_move b q.1 q.2 ai.player).2 false α' β' h)

theorem minimax_eq_plain (ai : OthelloAI) (d : ℕ) (b : Board) (isMax : Bool) :
    OthelloAI.minimax ai d b isMax ⊥ ⊤ = plain_minimax ai d b isMax := by
  have h := minimax_clamp ai d b isMax ⊥ ⊤ bot_lt_top
  rwa [clampV_bot_top, clampV_bot_top] at h

theorem rootGo_eq_plain (ai : OthelloAI) (b : Board) :
    ∀ (ms : List (ℤ × ℤ)) (bs : V) (best : ℤ × ℤ),
      rootGo ai b ms bs best = plain_rootGo ai b ms bs best := by
  intro ms
  induction ms with
  | nil => intro bs best; rfl
  | cons m ms ih =>
    intro bs best
    obtain ⟨r, c⟩ := m
    simp only [rootGo, plain_rootGo, minimax_eq_plain]
    split
    · exact ih _ _
    · exact ih _ _

theorem minimax_root_eq_plain (ai : OthelloAI) (b : Board)
    (moves : List (ℤ × ℤ)) :
    OthelloAI.minimax_root ai b moves = plain_minimax_root ai b moves :=
  rootGo_eq_plain ai b moves ⊥ (moves.headD (0, 0))

/-- C4: for every fixed board and every depth ≤ 4, the score returned by the
alpha-beta minimax recursion over the full `(-∞, ∞)` window (for either node
polarity) equals the score of exhaustive, unpruned minimax at the same
depth, and the move returned at the root equals the exhaustive root's move —
pruning changes only the number of nodes visited, never the returned
value. -/
theorem C4_alphabeta_equals_exhaustive (ai : OthelloAI) (b : Board) (d : ℕ)
    (_hd : d ≤ 4) :
    (∀ isMax : Bool,
      OthelloAI.minimax ai d b isMax ⊥ ⊤ = plain_minimax ai d b isMax) ∧
    (∀ moves : List (ℤ × ℤ),
      OthelloAI.minimax_root ai b moves = plain_minimax_root ai b moves) :=
  ⟨fun isMax => minimax_eq_plain ai d b isMax,
   fun moves => minimax_root_eq_plain ai b moves⟩

theorem C4_alphabeta_equals_exhaustive_witness :
    (3 : ℕ) ≤ 4 ∧
      ((∀ isMax : Bool,
        OthelloAI.minimax ⟨Player.white, 3⟩ 3 initial_board isMax ⊥ ⊤ =
          plain_minimax ⟨Player.white, 3⟩ 3 initial_board isMax) ∧
      (∀ moves : List (ℤ × ℤ),
        OthelloAI.minimax_root ⟨Player.white, 3⟩ initial_board moves =
          plain_minimax_root ⟨Player.white, 3⟩ initial_board moves)) :=
  ⟨by decide,
   C4_alphabeta_equals_exhaustive ⟨Player.white, 3⟩ initial_board 3 (by decide)⟩

/-!
Every minimax value is a finite integer score: the `±∞` fold seeds are
swallowed by the first child because a searched node always has at least
one move.
-/

/-- `x` is a finite score (not `±∞`). -/
def isFinV (x : V) : Prop := ∃ z : ℤ, x = toV z

theorem isFinV_toV (z : ℤ) : isFinV (toV z) := ⟨z, rfl⟩

theorem isFinV_max {x y : V} (hx : isFinV x) (hy : isFinV y) :
    isFinV (max x y) := by
  obtain ⟨a, rfl⟩ := hx
  obtain ⟨b, rfl⟩ := hy
  exact ⟨max a b, by simp [toV]⟩

theorem isFinV_min {x y : V} (hx : isFinV x) (hy : isFinV y) :
    isFinV (min x y) := by
  obtain ⟨a, rfl⟩ := hx
  obtain ⟨b, rfl⟩ := hy
  exact ⟨min a b, by simp [toV]⟩

theorem isFinV_lt_top {x : V} (h : isFinV x) : x < ⊤ := by
  obtain ⟨z, rfl⟩ := h
  exact lt_top_iff_ne_top.mpr (by simp [toV])

theorem abMaxGo_fin (recur : Board → V → V → V) (b : Board) (player : Player)
    (hrec : ∀ (bd : Board) (α' β' : V), isFinV (recur bd α' β')) :
    ∀ (ms : List (ℤ × ℤ)) (acc α β : V), isFinV acc →
      isFinV (abMaxGo recur b player ms acc α β) := by
  intro ms
  induction ms with
  | nil => intro acc α β hacc; exact hacc
  | cons m ms ih =>
    intro acc α β hacc
    obtain ⟨r, c⟩ := m
    simp only [abMaxGo]
    split
    · exact isFinV_max hacc (hrec _ _ _)
    · exact ih _ _ _ (isFinV_max hacc (hrec _ _ _))

theorem abMinGo_fin (recur : Board → V → V → V) (b : Board) (player : Player)
    (hrec : ∀ (bd : Board) (α' β' : V), isFinV (recur bd α' β')) :
    ∀ (ms : List (ℤ × ℤ)) (acc α β : V), isFinV acc →
      isFinV (abMinGo recur b player ms acc α β) := by
  intro ms
  induction ms with
  | nil => intro acc α β hacc; exact hacc
  | cons m ms ih =>
    intro acc α β hacc
    obtain ⟨r, c⟩ := m
    simp only [abMinGo]
    split
    · exact isFinV_min hacc (hrec _ _ _)
    · exact ih _ _ _ (isFinV_min hacc (hrec _ _ _))

theorem abMaxGo_fin_bot (recur : Board → V → V → V) (b : Board)
    (player : Player)
    (hrec : ∀ (bd : Board) (α' β' : V), isFinV (recur bd α' β'))
    (m : ℤ × ℤ) (ms : List (ℤ × ℤ)) (α β : V) :
    isFinV (abMaxGo recur b player (m :: ms) ⊥ α β) := by
  obtain ⟨r, c⟩ := m
  simp only [abMaxGo]
  have hfin : isFinV (max ⊥ (recur (make_move b r c player).2 α β)) := by
    rw [max_eq_right bot_le]
    exact hrec _ _ _
  split
  · exact hfin
  · exact abMaxGo_fin recur b player hrec ms _ _ _ hfin

theorem abMinGo_fin_top (recur : Board → V → V → V) (b : Board)
    (player : Player)
    (hrec : ∀ (bd : Board) (α' β' : V), isFinV (recur bd α' β'))
    (m : ℤ × ℤ) (ms : List (ℤ × ℤ)) (α β : V) :
    isFinV (abMinGo recur b player (m :: ms) ⊤ α β) := by
  obtain ⟨r, c⟩ := m
  simp only [abMinGo]
  have hfin : isFinV (min ⊤ (recur (make_move b r c player).2 α β)) := by
    rw [min_eq_right le_top]
    exact hrec _ _ _
  split
  · exact hfin
  · exact abMinGo_fin recur b player hrec ms _ _ _ hfin

theorem minimax_fin (ai : OthelloAI) :
    ∀ (d : ℕ) (b : Board) (isMax : Bool) (α β : V),
      isFinV (OthelloAI.minimax ai d b isMax α β) := by
  intro d
  induction d with
  | zero => intro b isMax α β; exact isFinV_toV _
  | succ d ih =>
    intro b isMax α β
    cases isMax with
    | false =>
      by_cases hover : is_game_over b
      · simp only [OthelloAI.minimax, if_pos hover]
        exact isFinV_toV _
      · simp only [OthelloAI.minimax, if_neg hover, Bool.false_eq_true,
          if_false, Bool.not_false]
        cases hmoves : get_valid_moves b ai.player.opponent with
        | nil => exact ih b true α β
        | cons m ms =>
          exact abMinGo_fin_top _ b ai.player.opponent
            (fun bd α' β' => ih bd true α' β') m ms α β
    | true =>
      by_cases hover : is_game_over b
      · simp only [OthelloAI.minimax, if_pos hover]
        exact isFinV_toV _
      · simp only [OthelloAI.minimax, if_neg hover, if_true, Bool.not_true]
        cases hmoves : get_valid_moves b ai.player with
        | nil => exact ih b false α β
        | cons m ms =>
          exact abMaxGo_fin_bot _ b ai.player
            (fun bd α' β' => ih bd false α' β') m ms α β

theorem choose_rootGo_eq_rootGo (ai : OthelloAI) (b : Board) :
    ∀ (ms : List (ℤ × ℤ)) (bs : V) (best : ℤ × ℤ), bs = ⊥ ∨ isFinV bs →
      choose_rootGo ai b ms bs best bs = rootGo ai b ms bs best := by
  intro ms
  induction ms with
  | nil => intro bs best _; rfl
  | cons m ms ih =>
    rintro bs best hbs
    obtain ⟨r, c⟩ := m
    have hbs_top : bs < ⊤ := by
      rcases hbs with rfl | h
      · exact bot_lt_top
      · exact isFinV_lt_top h
    simp only [choose_rootGo, rootGo]
    have key :
        max bs (OthelloAI.minimax ai (ai.depth - 1)
            (make_move b r c ai.player).2 false bs ⊤) =
        max bs (OthelloAI.minimax ai (ai.depth - 1)
            (make_move b r c ai.player).2 false ⊥ ⊤) := by
      have h1 := minimax_clamp ai (ai.depth - 1)
        (make_move b r c ai.player).2 false bs ⊤ hbs_top
      rw [← minimax_eq_plain ai (ai.depth - 1)
        (make_move b r c ai.player).2 false] at h1
      simpa [clampV, min_eq_right le_top] using h1
    set sS := OthelloAI.minimax ai (ai.depth - 1)
      (make_move b r c ai.player).2 false bs ⊤ with hsS
    set sC := OthelloAI.minimax ai (ai.depth - 1)
      (make_move b r c ai.player).2 false ⊥ ⊤ with hsC
    by_cases hlt : bs < sS
    · have h1 : max bs sS = sS := max_eq_right hlt.le
      have h2 : sC = sS := by
        rcases le_or_lt sC bs with h | h
        · rw [h1, max_eq_left h] at key
          exact absurd key.symm hlt.ne
        · rw [h1, max_eq_right h.le] at key
          exact key.symm
      have hltC : bs < sC := h2 ▸ hlt
      rw [if_pos hlt, if_pos hltC, h2, h1]
      exact ih sS (r, c) (Or.inr (by rw [hsS]; exact minimax_fin ai _ _ _ _ _))
    · have h1 : max bs sS = bs := max_eq_left (not_lt.mp hlt)
      have h2 : ¬ bs < sC := by
        intro h
        rw [h1, max_eq_right h.le] at key
        exact absurd (key ▸ h) (lt_irrefl bs)
      rw [if_neg hlt, if_neg h2, h1]
      exact ih bs best hbs

/-- C9: the minimax tier's `get_best_move` returns `none` exactly when the
agent's player has zero legal moves; otherwise it returns exactly what the
spec's root procedure returns — iterating the legal moves in row-major
order, scoring each by one ply of alpha-beta minimax at depth D−1 from the
opponent's turn with the root alpha tightened after each candidate, and
keeping the first move that strictly improves the best score. -/
theorem C9_minimax_choose_move (p : Player) (b : Board) :
    (OthelloAI.get_best_move ⟨p, 3⟩ b = none ↔ get_valid_moves b p = []) ∧
    OthelloAI.get_best_move ⟨p, 3⟩ b = choose_move_spec ⟨p, 3⟩ b := by
  cases hmoves : get_valid_moves b p with
  | nil =>
    constructor
    · simp [OthelloAI.get_best_move, hmoves]
    · simp [OthelloAI.get_best_move, choose_move_spec, hmoves]
  | cons m ms =>
    have hgb : OthelloAI.get_best_move ⟨p, 3⟩ b =
        some (OthelloAI.minimax_root ⟨p, 3⟩ b (m :: ms)) := by
      simp [OthelloAI.get_best_move, hmoves]
    constructor
    · rw [hgb]
      simp [hmoves]
    · rw [hgb]
      simp only [choose_move_spec, hmoves]
      rw [choose_rootGo_eq_rootGo ⟨p, 3⟩ b (m :: ms) ⊥ m (Or.inl rfl)]
      rfl

theorem C9_minimax_choose_move_witness :
    (OthelloAI.get_best_move ⟨Player.white, 3⟩ initial_board = none ↔
      get_valid_moves initial_board Player.white = []) ∧
    OthelloAI.get_best_move ⟨Player.white, 3⟩ initial_board =
      choose_move_spec ⟨Player.white, 3⟩ initial_board :=
  C9_minimax_choose_move Player.white initial_board

/-- A fully occupied board, on which neither player can move; used below as
a concrete terminal position. -/
def full_board : Board := fun _ _ => Cell.occ Player.black

/-- C5: the terminal predicate holds iff every player's legal-move set is
empty — true when both players simultaneously have zero legal moves, false
as soon as either player still has a legal move (the game state carries no
pass counter at all, so the predicate depends on nothing else). -/
theorem C5_terminal_iff_no_moves (b : Board) :
    is_game_over b ↔ ∀ p : Player, get_valid_moves b p = [] := by
  constructor
  · rintro ⟨hb, hw⟩ p
    cases p
    · exact hb
    · exact hw
  · intro h
    exact ⟨h Player.black, h Player.white⟩

theorem C5_terminal_iff_no_moves_witness :
    is_game_over full_board ↔ ∀ p : Player, get_valid_moves full_board p = [] :=
  C5_terminal_iff_no_moves full_board

/-- C8: the freshly initialized board has exactly 4 occupied cells — white
on the `(3,3)`/`(4,4)` diagonal of the central 2×2 block, black on the
other two — 60 empty cells, and Black has exactly 4 legal moves on it. -/
theorem C8_initial_board :
    occupied_count initial_board = 4 ∧
    initial_board 3 3 = Cell.occ Player.white ∧
    initial_board 4 4 = Cell.occ Player.white ∧
    initial_board 3 4 = Cell.occ Player.black ∧
    initial_board 4 3 = Cell.occ Player.black ∧
    piece_count initial_board Player.black = 2 ∧
    piece_count initial_board Player.white = 2 ∧
    empty_count initial_board = 60 ∧
    (get_valid_moves initial_board Player.black).length = 4 := by
  decide

theorem countP_three_split (f : Fin 8 → Cell) (l : List (Fin 8)) :
    l.countP (fun c => decide (f c = Cell.occ Player.black)) +
      l.countP (fun c => decide (f c = Cell.occ Player.white)) +
      l.countP (fun c => decide (f c = Cell.empty)) = l.length := by
  induction l with
  | nil => rfl
  | cons x xs ih =>
    cases hx : f x with
    | empty =>
      simp only [List.countP_cons, hx, List.length_cons]
      simp
      omega
    | occ pp =>
      cases pp <;>
        · simp only [List.countP_cons, hx, List.length_cons]
          simp
          omega

theorem sum_three_maps (l : List (Fin 8)) (F G H : Fin 8 → ℕ) :
    (l.map F).sum + (l.map G).sum + (l.map H).sum =
      (l.map fun r => F r + G r + H r).sum := by
  induction l with
  | nil => rfl
  | cons x xs ih =>
    simp only [List.map_cons, List.sum_cons]
    omega

theorem score_conservation (b : Board) :
    (get_score b).1 + (get_score b).2 + empty_count b = 64 := by
  unfold get_score empty_count
  dsimp only
  rw [sum_three_maps]
  have h2 : ((List.finRange 8).map fun r =>
      (List.finRange 8).countP (fun c => decide (b r c = Cell.occ Player.black)) +
        (List.finRange 8).countP (fun c => decide (b r c = Cell.occ Player.white)) +
        (List.finRange 8).countP (fun c => decide (b r c = Cell.empty))) =
      (List.finRange 8).map fun _ => 8 := by
    apply List.map_congr_left
    intro r _
    rw [countP_three_split (b r) (List.finRange 8)]
    decide
  rw [h2]
  decide

/-- C6: after every `make_move` call (successful or not), the black count
plus the white count plus the empty count is exactly 64 — the board always
consists of 64 cells, each independently empty, black or white. -/
theorem C6_conservation (b : Board) (r c : ℤ) (p : Player) :
    (get_score (make_move b r c p).2).1 + (get_score (make_move b r c p).2).2 +
      empty_count (make_move b r c p).2 = 64 :=
  score_conservation (make_move b r c p).2

theorem foldl_add_shift (l : List (Fin 8)) (g : Fin 8 → ℤ) :
    ∀ a : ℤ, l.foldl (fun s x => s + g x) a = a + (l.map g).sum := by
  induction l with
  | nil => intro a; simp
  | cons x xs ih =>
    intro a
    simp only [List.foldl_cons, List.map_cons, List.sum_cons]
    rw [ih]
    ring

theorem evaluate_eq_positional (ai : OthelloAI) (b : Board) :
    ai.evaluate b = positional_score ai.player b := by
  have hstep : ∀ r : Fin 8,
      (fun (score : ℤ) (c : Fin 8) =>
        if b r c = Cell.occ ai.player then score + WEIGHTS r c
        else if b r c = Cell.occ ai.player.opponent then score - WEIGHTS r c
        else score) =
      (fun (score : ℤ) (c : Fin 8) =>
        score +
          (if b r c = Cell.occ ai.player then WEIGHTS r c
           else if b r c = Cell.occ ai.player.opponent then -WEIGHTS r c
           else 0)) := by
    intro r
    funext s c
    split_ifs <;> ring
  have houter :
      (fun (score : ℤ) (r : Fin 8) =>
        (List.finRange 8).foldl
          (fun (score : ℤ) (c : Fin 8) =>
            if b r c = Cell.occ ai.player then score + WEIGHTS r c
            else if b r c = Cell.occ ai.player.opponent then score - WEIGHTS r c
            else score)
          score) =
      (fun (score : ℤ) (r : Fin 8) =>
        score +
          ((List.finRange 8).map fun c =>
            if b r c = Cell.occ ai.player then WEIGHTS r c
            else if b r c = Cell.occ ai.player.opponent then -WEIGHTS r c
            else 0).sum) := by
    funext s r
    rw [hstep r, foldl_add_shift]
  unfold OthelloAI.evaluate
  rw [houter, foldl_add_shift]
  simp only [positional_score, Fin.sum_univ_def]
  omega

/-- C1 (amended): the static evaluation returned by the minimax tier at
depth 0 or at a terminal position equals the positional score alone — the
weight-matrix sum with agent cells added and opponent cells subtracted; no
material or mobility term is present. -/
theorem C1_static_evaluation (ai : OthelloAI) (b : Board) (isMax : Bool)
    (α β : V) :
    OthelloAI.minimax ai 0 b isMax α β = toV (positional_score ai.player b) ∧
    (∀ d : ℕ, is_game_over b →
      OthelloAI.minimax ai d b isMax α β = toV (positional_score ai.player b)) := by
  constructor
  · show toV (ai.evaluate b) = toV (positional_score ai.player b)
    rw [evaluate_eq_positional]
  · intro d hover
    cases d with
    | zero =>
      show toV (ai.evaluate b) = toV (positional_score ai.player b)
      rw [evaluate_eq_positional]
    | succ d =>
      simp only [OthelloAI.minimax, if_pos hover]
      rw [evaluate_eq_positional]

theorem C1_static_evaluation_witness :
    is_game_over full_board ∧
    OthelloAI.minimax ⟨Player.black, 3⟩ 2 full_board true ⊥ ⊤ =
      toV (positional_score Player.black full_board) :=
  ⟨by decide,
   (C1_static_evaluation ⟨Player.black, 3⟩ full_board true ⊥ ⊤).2 2 (by decide)⟩

/-- A small concrete position separating the code's evaluator from the
three-term formula claimed by the spec: black pieces at `(0,1)` and `(0,2)`,
a white piece at `(0,3)`. -/
def c1_board : Board := fun r c =>
  if r = 0 ∧ c = 1 then Cell.occ Player.black
  else if r = 0 ∧ c = 2 then Cell.occ Player.black
  else if r = 0 ∧ c = 3 then Cell.occ Player.white
  else Cell.empty

/-- C1 is false as stated: on `c1_board` the code's static evaluation (as
returned by the minimax tier at depth 0) is the positional score −15, while
the claimed material/positional/mobility sum is −5. -/
theorem C1_static_evaluation_counterexample :
    OthelloAI.minimax ⟨Player.black, 3⟩ 0 c1_board true ⊥ ⊤ ≠
      toV (claimed_evaluation Player.black c1_board) := by
  decide

theorem greedyGo_spec (b : Board) (p : Player) :
    ∀ (ms : List (ℤ × ℤ)) (best : ℤ × ℤ) (maxF : ℤ),
      ∃ m, greedyGo b p ms best maxF = m ∧
        ((m = best ∧ ∀ x ∈ ms, ((get_flips b x.1 x.2 p).length : ℤ) ≤ maxF) ∨
         (∃ l₁ l₂, ms = l₁ ++ m :: l₂ ∧
           maxF < ((get_flips b m.1 m.2 p).length : ℤ) ∧
           (∀ x ∈ l₁, ((get_flips b x.1 x.2 p).length : ℤ) <
             ((get_flips b m.1 m.2 p).length : ℤ)) ∧
           (∀ x ∈ l₂, ((get_flips b x.1 x.2 p).length : ℤ) ≤
             ((get_flips b m.1 m.2 p).length : ℤ)))) := by
  intro ms
  induction ms with
  | nil =>
    intro best maxF
    exact ⟨best, rfl, Or.inl ⟨rfl, by simp⟩⟩
  | cons x ms ih =>
    intro best maxF
    obtain ⟨r, c⟩ := x
    by_cases hgt : ((get_flips b r c p).length : ℤ) > maxF
    · obtain ⟨m, heq, hcase⟩ := ih (r, c) ((get_flips b r c p).length : ℤ)
      refine ⟨m, ?_, ?_⟩
      · simp only [greedyGo, if_pos hgt]
        exact heq
      · rcases hcase with ⟨rfl, hall⟩ | ⟨l₁, l₂, hsplit, hmax, hl1, hl2⟩
        · exact Or.inr ⟨[], ms, rfl, hgt, by simp, hall⟩
        · exact Or.inr ⟨(r, c) :: l₁, l₂, by rw [hsplit]; rfl, hgt.trans hmax,
            fun y hy => by
              rcases List.mem_cons.mp hy with rfl | hy'
              · exact hmax
              · exact hl1 y hy',
            hl2⟩
    · push_neg at hgt
      obtain ⟨m, heq, hcase⟩ := ih best maxF
      refine ⟨m, ?_, ?_⟩
      · simp only [greedyGo, if_neg (not_lt.mpr hgt)]
        exact heq
      · rcases hcase with ⟨hm, hall⟩ | ⟨l₁, l₂, hsplit, hmax, hl1, hl2⟩
        · refine Or.inl ⟨hm, fun y hy => ?_⟩
          rcases List.mem_cons.mp hy with rfl | hy'
          · exact hgt
          · exact hall y hy'
        · exact Or.inr ⟨(r, c) :: l₁, l₂, by rw [hsplit]; rfl, hmax,
            fun y hy => by
              rcases List.mem_cons.mp hy with rfl | hy'
              · exact lt_of_le_of_lt hgt hmax
              · exact hl1 y hy',
            hl2⟩

/-- C7: on any board where the agent's player has a legal move, the greedy
tier returns the legal move with the maximal immediate flip count, ties
broken in favor of the first-encountered move in the row-major move list:
the chosen move strictly beats every earlier legal move and is at least as
good as every later one. -/
theorem C7_greedy_max_flips (b : Board) (p : Player)
    (h : get_valid_moves b p ≠ []) :
    ∃ m l₁ l₂,
      OthelloAI.get_best_move ⟨p, 2⟩ b = some m ∧
      get_valid_moves b p = l₁ ++ m :: l₂ ∧
      (∀ x ∈ l₁, (get_flips b x.1 x.2 p).length < (get_flips b m.1 m.2 p).length) ∧
      (∀ x ∈ l₂, (get_flips b x.1 x.2 p).length ≤ (get_flips b m.1 m.2 p).length) := by
  cases hmoves : get_valid_moves b p with
  | nil => exact absurd hmoves h
  | cons m0 ms =>
    have hgb : OthelloAI.get_best_move ⟨p, 2⟩ b =
        some (greedyGo b p (m0 :: ms) m0 (-1)) := by
      simp [OthelloAI.get_best_move, hmoves]
    obtain ⟨m, heq, hcase⟩ := greedyGo_spec b p (m0 :: ms) m0 (-1)
    rcases hcase with ⟨hm, hall⟩ | ⟨l₁, l₂, hsplit, _, hl1, hl2⟩
    · have h0 := hall m0 (List.mem_cons_self _ _)
      have h1 : (0 : ℤ) ≤ ((get_flips b m0.1 m0.2 p).length : ℤ) :=
        Int.natCast_nonneg _
      omega
    · refine ⟨m, l₁, l₂, ?_, ?_, ?_, ?_⟩
      · rw [hgb, heq]
      · exact hsplit
      · intro y hy
        exact_mod_cast hl1 y hy
      · intro y hy
        exact_mod_cast hl2 y hy

theorem C7_greedy_max_flips_witness :
    get_valid_moves initial_board Player.black ≠ [] ∧
    (∃ m l₁ l₂,
      OthelloAI.get_best_move ⟨Player.black, 2⟩ initial_board = some m ∧
      get_valid_moves initial_board Player.black = l₁ ++ m :: l₂ ∧
      (∀ x ∈ l₁, (get_flips initial_board x.1 x.2 Player.black).length <
        (get_flips initial_board m.1 m.2 Player.black).length) ∧
      (∀ x ∈ l₂, (get_flips initial_board x.1 x.2 Player.black).length ≤
        (get_flips initial_board m.1 m.2 Player.black).length)) :=
  ⟨by decide, C7_greedy_max_flips initial_board Player.black (by decide)⟩

/-- C3: `make_move` on the full object state returns `true` exactly on legal
moves (out-of-range coordinates fall under the same `get_flips = []` test as
any other illegal move), and on an illegal move it leaves the state — every
cell and the current player — completely unmodified. -/
theorem C3_apply_move (s : OthelloState) (r c : ℤ) (p : Player) :
    ((make_move_st s r c p).1 = true ↔ is_valid_move s.board r c p) ∧
    (¬ is_valid_move s.board r c p → (make_move_st s r c p).2 = s) := by
  constructor
  · unfold make_move_st make_move is_valid_move
    by_cases h : get_flips s.board r c p = []
    · simp [h]
    · simp [h]
  · intro hnv
    unfold is_valid_move at hnv
    rw [not_not] at hnv
    unfold make_move_st make_move
    simp [hnv]

theorem C3_apply_move_witness :
    ((make_move_st ⟨initial_board, Player.black⟩ 9 0 Player.black).1 = true ↔
      is_valid_move initial_board 9 0 Player.black) ∧
    (make_move_st ⟨initial_board, Player.black⟩ 9 0 Player.black).2 =
      ⟨initial_board, Player.black⟩ :=
  ⟨(C3_apply_move ⟨initial_board, Player.black⟩ 9 0 Player.black).1,
   (C3_apply_move ⟨initial_board, Player.black⟩ 9 0 Player.black).2 (by decide)⟩

theorem Player.opponent_ne (p : Player) : p.opponent ≠ p := by
  cases p <;> decide

theorem range_map_shift (r c dr dc : ℤ) (k : ℕ) :
    (List.range (k + 1)).map (fun i : ℕ => (r + (i : ℤ) * dr, c + (i : ℤ) * dc)) =
      (r, c) :: (List.range k).map
        (fun i : ℕ => (r + dr + (i : ℤ) * dr, c + dc + (i : ℤ) * dc)) := by
  rw [List.range_succ_eq_map, List.map_cons, List.map_map]
  congr 1
  · simp
  · apply List.map_congr_left
    intro i _
    simp only [Function.comp_apply]
    rw [Prod.mk.injEq]
    constructor <;> push_cast <;> ring

theorem walkRun_spec (b : Board) (o : Player) (dr dc : ℤ) :
    ∀ (fuel : ℕ) (r c : ℤ),
      (∃ j < fuel, ¬ (isValidBounds (r + j * dr) (c + j * dc) ∧
        cellZ b (r + j * dr) (c + j * dc) = Cell.occ o)) →
      ∃ k : ℕ, k < fuel ∧
        (∀ i < k, isValidBounds (r + i * dr) (c + i * dc) ∧
          cellZ b (r + i * dr) (c + i * dc) = Cell.occ o) ∧
        ¬ (isValidBounds (r + k * dr) (c + k * dc) ∧
          cellZ b (r + k * dr) (c + k * dc) = Cell.occ o) ∧
        walkRun b o dr dc r c fuel =
          ((List.range k).map fun i : ℕ => (r + (i : ℤ) * dr, c + (i : ℤ) * dc),
            r + k * dr, c + k * dc) := by
  intro fuel
  induction fuel with
  | zero =>
    rintro r c ⟨j, hj, _⟩
    omega
  | succ fuel ih =>
    rintro r c ⟨j, hj, hnot⟩
    by_cases h0 : isValidBounds r c ∧ cellZ b r c = Cell.occ o
    · have hj0 : j ≠ 0 := by
        rintro rfl
        apply hnot
        simpa using h0
      obtain ⟨j', rfl⟩ : ∃ j', j = j' + 1 := ⟨j - 1, by omega⟩
      have hshift : ∃ j'' < fuel,
          ¬ (isValidBounds (r + dr + j'' * dr) (c + dc + j'' * dc) ∧
            cellZ b (r + dr + j'' * dr) (c + dc + j'' * dc) = Cell.occ o) := by
        refine ⟨j', by omega, fun hcon => hnot ?_⟩
        have e1 : r + dr + (j' : ℤ) * dr = r + ((j' + 1 : ℕ) : ℤ) * dr := by
          push_cast; ring
        have e2 : c + dc + (j' : ℤ) * dc = c + ((j' + 1 : ℕ) : ℤ) * dc := by
          push_cast; ring
        rwa [e1, e2] at hcon
      obtain ⟨k', hk', hok', hnot', heq'⟩ := ih (r + dr) (c + dc) hshift
      refine ⟨k' + 1, by omega, ?_, ?_, ?_⟩
      · intro i hi
        cases i with
        | zero => simpa using h0
        | succ i' =>
          have h := hok' i' (by omega)
          have e1 : r + dr + (i' : ℤ) * dr = r + ((i' + 1 : ℕ) : ℤ) * dr := by
            push_cast; ring
          have e2 : c + dc + (i' : ℤ) * dc = c + ((i' + 1 : ℕ) : ℤ) * dc := by
            push_cast; ring
          rwa [e1, e2] at h
      · have e1 : r + dr + (k' : ℤ) * dr = r + ((k' + 1 : ℕ) : ℤ) * dr := by
          push_cast; ring
        have e2 : c + dc + (k' : ℤ) * dc = c + ((k' + 1 : ℕ) : ℤ) * dc := by
          push_cast; ring
        rw [← e1, ← e2]
        exact hnot'
      · show walkRun b o dr dc r c (fuel + 1) = _
        rw [walkRun, if_pos h0, heq']
        rw [range_map_shift]
        rw [Prod.mk.injEq, Prod.mk.injEq]
        refine ⟨rfl, ?_, ?_⟩ <;> push_cast <;> ring
    · refine ⟨0, by omega, ?_, ?_, ?_⟩
      · intro i hi
        omega
      · simpa using h0
      · rw [walkRun, if_neg h0]
        simp

theorem direction_exit (dr dc : ℤ) (hd : (dr, dc) ∈ directions) (r c : ℤ)
    (hb : isValidBounds r c) : ¬ isValidBounds (r + 8 * dr) (c + 8 * dc) := by
  rw [isValidBounds_def] at hb
  rw [isValidBounds_def]
  simp only [directions, List.mem_cons, List.not_mem_nil, or_false,
    Prod.mk.injEq] at hd
  rcases hd with h | h | h | h | h | h | h | h <;>
    obtain ⟨rfl, rfl⟩ := h <;> omega

theorem walkRun_mem (b : Board) (o : Player) (dr dc : ℤ) :
    ∀ (fuel : ℕ) (r c : ℤ) (q : ℤ × ℤ), q ∈ (walkRun b o dr dc r c fuel).1 →
      isValidBounds q.1 q.2 ∧ cellZ b q.1 q.2 = Cell.occ o := by
  intro fuel
  induction fuel with
  | zero =>
    intro r c q hq
    simp [walkRun] at hq
  | succ fuel ih =>
    intro r c q hq
    by_cases h : isValidBounds r c ∧ cellZ b r c = Cell.occ o
    · rw [walkRun, if_pos h] at hq
      rcases List.mem_cons.mp hq with rfl | hq'
      · exact h
      · exact ih _ _ q hq'
    · rw [walkRun, if_neg h] at hq
      simp at hq

theorem flipsInDir_iff (b : Board) (p : Player) (r c dr dc : ℤ)
    (hd : (dr, dc) ∈ directions) (hb : isValidBounds r c) :
    flipsInDir b p r c dr dc ≠ [] ↔ bracketsInDir b p r c dr dc := by
  have hexit : ∃ j : ℕ, j < 8 ∧
      ¬ (isValidBounds (r + dr + j * dr) (c + dc + j * dc) ∧
        cellZ b (r + dr + j * dr) (c + dc + j * dc) = Cell.occ p.opponent) := by
    refine ⟨7, by omega, fun hcon => ?_⟩
    have e1 : r + dr + ((7 : ℕ) : ℤ) * dr = r + 8 * dr := by push_cast; ring
    have e2 : c + dc + ((7 : ℕ) : ℤ) * dc = c + 8 * dc := by push_cast; ring
    rw [e1, e2] at hcon
    exact direction_exit dr dc hd r c hb hcon.1
  obtain ⟨k, hk8, hok, hnot, heq⟩ :=
    walkRun_spec b p.opponent dr dc 8 (r + dr) (c + dc) hexit
  simp only [flipsInDir, heq]
  constructor
  · intro hne
    by_cases hcond : isValidBounds (r + dr + (k : ℤ) * dr) (c + dc + (k : ℤ) * dc) ∧
        cellZ b (r + dr + (k : ℤ) * dr) (c + dc + (k : ℤ) * dc) = Cell.occ p
    · rw [if_pos hcond] at hne
      have hk0 : 1 ≤ k := by
        rcases Nat.eq_zero_or_pos k with rfl | h
        · simp at hne
        · omega
      refine ⟨k, hk0, ?_, ?_, ?_⟩
      · intro i h1i hik
        have h := hok (i - 1) (by omega)
        have e1 : r + dr + ((i - 1 : ℕ) : ℤ) * dr = r + (i : ℤ) * dr := by
          rw [Nat.cast_sub h1i]; push_cast; ring
        have e2 : c + dc + ((i - 1 : ℕ) : ℤ) * dc = c + (i : ℤ) * dc := by
          rw [Nat.cast_sub h1i]; push_cast; ring
        rwa [e1, e2] at h
      · have e1 : r + dr + (k : ℤ) * dr = r + ((k : ℤ) + 1) * dr := by ring
        have e2 : c + dc + (k : ℤ) * dc = c + ((k : ℤ) + 1) * dc := by ring
        rw [← e1, ← e2]
        exact hcond.1
      · have e1 : r + dr + (k : ℤ) * dr = r + ((k : ℤ) + 1) * dr := by ring
        have e2 : c + dc + (k : ℤ) * dc = c + ((k : ℤ) + 1) * dc := by ring
        rw [← e1, ← e2]
        exact hcond.2
    · rw [if_neg hcond] at hne
      exact absurd rfl hne
  · rintro ⟨k₀, hk₀, hsteps, hfb, hfc⟩
    have hkk : k = k₀ := by
      by_contra hne'
      rcases Nat.lt_or_ge k k₀ with hlt | hge
      · apply hnot
        have h := hsteps (k + 1) (by omega) (by omega)
        have e1 : r + ((k + 1 : ℕ) : ℤ) * dr = r + dr + (k : ℤ) * dr := by
          push_cast; ring
        have e2 : c + ((k + 1 : ℕ) : ℤ) * dc = c + dc + (k : ℤ) * dc := by
          push_cast; ring
        rwa [e1, e2] at h
      · have hlt : k₀ < k := by omega
        have h := hok k₀ hlt
        have e1 : r + dr + (k₀ : ℤ) * dr = r + ((k₀ : ℤ) + 1) * dr := by ring
        have e2 : c + dc + (k₀ : ℤ) * dc = c + ((k₀ : ℤ) + 1) * dc := by ring
        rw [e1, e2] at h
        have hcell : Cell.occ p = Cell.occ p.opponent := hfc.symm.trans h.2
        have : p = p.opponent := by
          injection hcell
        exact (Player.opponent_ne p) this.symm
    subst hkk
    have e1 : r + dr + (k : ℤ) * dr = r + ((k : ℤ) + 1) * dr := by ring
    have e2 : c + dc + (k : ℤ) * dc = c + ((k : ℤ) + 1) * dc := by ring
    rw [if_pos (by rw [e1, e2]; exact ⟨hfb, hfc⟩)]
    intro hcon
    have := congrArg List.length hcon
    simp at this
    omega

theorem flatMap_ne_nil_iff {α β : Type} (l : List α) (f : α → List β) :
    l.flatMap f ≠ [] ↔ ∃ x ∈ l, f x ≠ [] := by
  induction l with
  | nil => simp
  | cons x xs ih =>
    simp only [List.flatMap_cons, ne_eq, List.append_eq_nil, not_and]
    constructor
    · intro h
      by_cases hx : f x = []
      · obtain ⟨y, hy, hfy⟩ := ih.mp (h hx)
        exact ⟨y, List.mem_cons_of_mem _ hy, hfy⟩
      · exact ⟨x, List.mem_cons_self _ _, hx⟩
    · rintro ⟨y, hy, hfy⟩ hx
      rcases List.mem_cons.mp hy with rfl | hy'
      · exact absurd hx hfy
      · exact ih.mpr ⟨y, hy', hfy⟩

theorem get_flips_ne_nil_iff (b : Board) (p : Player) (r c : ℤ)
    (hb : isValidBounds r c) :
    get_flips b r c p ≠ [] ↔
      cellZ b r c = Cell.empty ∧
        ∃ d ∈ directions, bracketsInDir b p r c d.1 d.2 := by
  unfold get_flips
  by_cases hemp : cellZ b r c = Cell.empty
  · rw [if_neg (by simp [hb, hemp])]
    rw [flatMap_ne_nil_iff]
    constructor
    · rintro ⟨d, hd, hne⟩
      refine ⟨hemp, d, hd, ?_⟩
      exact (flipsInDir_iff b p r c d.1 d.2 (by rwa [Prod.mk.eta]) hb).mp hne
    · rintro ⟨_, d, hd, hbr⟩
      refine ⟨d, hd, ?_⟩
      exact (flipsInDir_iff b p r c d.1 d.2 (by rwa [Prod.mk.eta]) hb).mpr hbr
  · rw [if_pos (Or.inr hemp)]
    constructor
    · intro h
      exact absurd rfl h
    · rintro ⟨h, _⟩
      exact absurd h hemp

/-- C2: for coordinates inside `[0,7] × [0,7]`, a move is legal for a player
iff the cell is empty and at least one of the 8 ray directions brackets —
walking from the cell, it meets one or more consecutive opponent pieces
immediately followed, in bounds, by one of the player's pieces; moreover a
direction contributes a non-empty flip run exactly under its bracketing
condition, so a direction with zero collected opponent pieces never
contributes. -/
theorem C2_legality (b : Board) (p : Player) (r c : ℤ)
    (h0r : 0 ≤ r) (h7r : r ≤ 7) (h0c : 0 ≤ c) (h7c : c ≤ 7) :
    (is_valid_move b r c p ↔
      (cellZ b r c = Cell.empty ∧
        ∃ d ∈ directions, bracketsInDir b p r c d.1 d.2)) ∧
    (∀ d ∈ directions,
      (flipsInDir b p r c d.1 d.2 ≠ [] ↔ bracketsInDir b p r c d.1 d.2)) := by
  have hb : isValidBounds r c := ⟨h0r, by omega, h0c, by omega⟩
  exact ⟨get_flips_ne_nil_iff b p r c hb,
    fun d hd => flipsInDir_iff b p r c d.1 d.2 (by rwa [Prod.mk.eta]) hb⟩

theorem C2_legality_witness :
    ((0 : ℤ) ≤ 2 ∧ (2 : ℤ) ≤ 7 ∧ (0 : ℤ) ≤ 3 ∧ (3 : ℤ) ≤ 7) ∧
    ((is_valid_move initial_board 2 3 Player.black ↔
      (cellZ initial_board 2 3 = Cell.empty ∧
        ∃ d ∈ directions,
          bracketsInDir initial_board Player.black 2 3 d.1 d.2)) ∧
    (∀ d ∈ directions,
      (flipsInDir initial_board Player.black 2 3 d.1 d.2 ≠ [] ↔
        bracketsInDir initial_board Player.black 2 3 d.1 d.2))) :=
  ⟨by decide,
   C2_legality initial_board Player.black 2 3 (by decide) (by decide)
     (by decide) (by decide)⟩

theorem get_flips_mem (b : Board) (r c : ℤ) (p : Player) (q : ℤ × ℤ)
    (hq : q ∈ get_flips b r c p) :
    isValidBounds q.1 q.2 ∧ cellZ b q.1 q.2 = Cell.occ p.opponent := by
  unfold get_flips at hq
  by_cases h : ¬ isValidBounds r c ∨ cellZ b r c ≠ Cell.empty
  · rw [if_pos h] at hq
    simp at hq
  · rw [if_neg h] at hq
    rw [List.mem_flatMap] at hq
    obtain ⟨d, _, hq'⟩ := hq
    simp only [flipsInDir] at hq'
    split at hq'
    · exact walkRun_mem b p.opponent d.1 d.2 8 (r + d.1) (c + d.2) q hq'
    · simp at hq'

theorem get_flips_src (b : Board) (r c : ℤ) (p : Player)
    (h : get_flips b r c p ≠ []) :
    isValidBounds r c ∧ cellZ b r c = Cell.empty := by
  unfold get_flips at h
  by_cases hcond : ¬ isValidBounds r c ∨ cellZ b r c ≠ Cell.empty
  · rw [if_pos hcond] at h
    exact absurd rfl h
  · push_neg at hcond
    exact hcond

theorem foldl_setZ_apply (v : Cell) (l : List (ℤ × ℤ)) :
    ∀ (b0 : Board) (i j : Fin 8),
      (l.foldl (fun bd q => setZ bd q.1 q.2 v) b0) i j =
        if ((i : ℤ), (j : ℤ)) ∈ l then v else b0 i j := by
  induction l with
  | nil =>
    intro b0 i j
    simp
  | cons q l ih =>
    intro b0 i j
    obtain ⟨qr, qc⟩ := q
    simp only [List.foldl_cons]
    rw [ih]
    by_cases hmem : ((i : ℤ), (j : ℤ)) ∈ l
    · rw [if_pos hmem, if_pos (List.mem_cons_of_mem _ hmem)]
    · rw [if_neg hmem]
      simp only [setZ]
      by_cases heq : ((i : ℤ) = qr ∧ (j : ℤ) = qc)
      · rw [if_pos heq,
          if_pos (List.mem_cons.mpr (Or.inl (by rw [heq.1, heq.2])))]
      · rw [if_neg heq, if_neg ?_]
        intro hin
        rcases List.mem_cons.mp hin with hpe | hin'
        · rw [Prod.mk.injEq] at hpe
          exact heq hpe
        · exact hmem hin'

theorem make_move_success (b : Board) (r c : ℤ) (p : Player)
    (h : (make_move b r c p).1 = true) : get_flips b r c p ≠ [] := by
  unfold make_move at h
  by_cases hnil : get_flips b r c p = []
  · rw [if_pos hnil] at h
    simp at h
  · exact hnil

theorem make_move_cell (b : Board) (r c : ℤ) (p : Player)
    (h : (make_move b r c p).1 = true) (i j : Fin 8) :
    (make_move b r c p).2 i j =
      if ((i : ℤ), (j : ℤ)) ∈ get_flips b r c p ∨ ((i : ℤ) = r ∧ (j : ℤ) = c)
      then Cell.occ p else b i j := by
  have hnil := make_move_success b r c p h
  unfold make_move
  rw [if_neg hnil]
  dsimp only
  rw [foldl_setZ_apply]
  by_cases hmem : ((i : ℤ), (j : ℤ)) ∈ get_flips b r c p
  · rw [if_pos hmem, if_pos (Or.inl hmem)]
  · rw [if_neg hmem]
    simp only [setZ]
    by_cases heq : ((i : ℤ) = r ∧ (j : ℤ) = c)
    · rw [if_pos heq, if_pos (Or.inr heq)]
    · rw [if_neg heq, if_neg ?_]
      rintro (hm | he)
      · exact hmem hm
      · exact heq he

theorem int_to_fin (r c : ℤ) (h : isValidBounds r c) :
    ∃ i j : Fin 8, (i : ℤ) = r ∧ (j : ℤ) = c ∧
      ∀ b' : Board, cellZ b' r c = b' i j := by
  rw [isValidBounds_def] at h
  refine ⟨⟨r.toNat, by omega⟩, ⟨c.toNat, by omega⟩, ?_, ?_, ?_⟩
  · simp only [Fin.val_mk]
    omega
  · simp only [Fin.val_mk]
    omega
  · intro b'
    unfold cellZ
    rw [dif_pos (isValidBounds_def r c |>.mpr h)]

theorem cellZ_coe (b : Board) (i j : Fin 8) :
    cellZ b (i : ℤ) (j : ℤ) = b i j := by
  have hb : isValidBounds (i : ℤ) (j : ℤ) := by
    rw [isValidBounds_def]
    refine ⟨Int.natCast_nonneg _, ?_, Int.natCast_nonneg _, ?_⟩ <;>
      exact_mod_cast Fin.is_lt _
  obtain ⟨i', j', hi', hj', hcell⟩ := int_to_fin (i : ℤ) (j : ℤ) hb
  rw [hcell b]
  have hii : i' = i := Fin.ext (by omega)
  have hjj : j' = j := Fin.ext (by omega)
  rw [hii, hjj]

/-- C10: when `make_move` succeeds, the only cells that change are the
placed cell — which goes from empty to the mover's color — and the returned
flip positions — each holding the opponent's color before and the mover's
color after; every other cell is untouched, no cell ever becomes empty, no
cell already holding the mover's color changes, and the number of occupied
cells grows by exactly one. -/
theorem C10_frame (b : Board) (r c : ℤ) (p : Player)
    (h : (make_move b r c p).1 = true) :
    cellZ b r c = Cell.empty ∧
    cellZ (make_move b r c p).2 r c = Cell.occ p ∧
    (∀ q ∈ get_flips b r c p,
      cellZ b q.1 q.2 = Cell.occ p.opponent ∧
      cellZ (make_move b r c p).2 q.1 q.2 = Cell.occ p) ∧
    (∀ i j : Fin 8, ¬ ((i : ℤ) = r ∧ (j : ℤ) = c) →
      ((i : ℤ), (j : ℤ)) ∉ get_flips b r c p →
      (make_move b r c p).2 i j = b i j) ∧
    (∀ i j : Fin 8, (make_move b r c p).2 i j = Cell.empty →
      b i j = Cell.empty) ∧
    (∀ i j : Fin 8, b i j = Cell.occ p →
      (make_move b r c p).2 i j = Cell.occ p) ∧
    occupied_count (make_move b r c p).2 = occupied_count b + 1 := by
  have hnil := make_move_success b r c p h
  obtain ⟨hbounds, hempty⟩ := get_flips_src b r c p hnil
  obtain ⟨i0, j0, hi0, hj0, hcell0⟩ := int_to_fin r c hbounds
  have hplaced : (make_move b r c p).2 i0 j0 = Cell.occ p := by
    rw [make_move_cell b r c p h i0 j0, if_pos (Or.inr ⟨hi0, hj0⟩)]
  have hb0 : b i0 j0 = Cell.empty := by
    rw [← hcell0 b]
    exact hempty
  refine ⟨hempty, ?_, ?_, ?_, ?_, ?_, ?_⟩
  · rw [hcell0]
    exact hplaced
  · intro q hq
    obtain ⟨hqb, hqc⟩ := get_flips_mem b r c p q hq
    obtain ⟨iq, jq, hiq, hjq, hcellq⟩ := int_to_fin q.1 q.2 hqb
    refine ⟨hqc, ?_⟩
    rw [hcellq, make_move_cell b r c p h iq jq,
      if_pos (Or.inl (by rw [hiq, hjq, Prod.mk.eta]; exact hq))]
  · intro i j hne hnm
    rw [make_move_cell b r c p h i j, if_neg ?_]
    rintro (hm | he)
    · exact hnm hm
    · exact hne he
  · intro i j hemp'
    rw [make_move_cell b r c p h i j] at hemp'
    split at hemp'
    · exact absurd hemp' (fun hc => Cell.noConfusion hc)
    · exact hemp'
  · intro i j hown
    rw [make_move_cell b r c p h i j]
    split
    · rfl
    · exact hown
  · have hset : (Finset.univ.filter fun ij : Fin 8 × Fin 8 =>
        (make_move b r c p).2 ij.1 ij.2 ≠ Cell.empty) =
        insert (i0, j0) (Finset.univ.filter fun ij : Fin 8 × Fin 8 =>
          b ij.1 ij.2 ≠ Cell.empty) := by
      ext ⟨i, j⟩
      simp only [Finset.mem_filter, Finset.mem_insert, Finset.mem_univ,
        true_and, Prod.mk.injEq]
      rw [make_move_cell b r c p h i j]
      by_cases hmem : ((i : ℤ), (j : ℤ)) ∈ get_flips b r c p ∨
          ((i : ℤ) = r ∧ (j : ℤ) = c)
      · rw [if_pos hmem]
        constructor
        · intro _
          rcases hmem with hm | he
          · right
            have hcq := (get_flips_mem b r c p _ hm).2
            dsimp only at hcq
            rw [cellZ_coe] at hcq
            rw [hcq]
            exact fun hc => Cell.noConfusion hc
          · left
            have h1 : (i : ℤ) = (i0 : ℤ) := by rw [he.1, hi0]
            have h2 : (j : ℤ) = (j0 : ℤ) := by rw [he.2, hj0]
            exact ⟨Fin.ext (by exact_mod_cast h1), Fin.ext (by exact_mod_cast h2)⟩
        · intro _
          exact fun hc => Cell.noConfusion hc
      · rw [if_neg hmem]
        push_neg at hmem
        obtain ⟨hm1, hm2⟩ := hmem
        constructor
        · intro hne
          exact Or.inr hne
        · rintro (⟨rfl, rfl⟩ | hne)
          · exact (hm2 hi0 hj0).elim
          · exact hne
    rw [occupied_count, occupied_count, hset,
      Finset.card_insert_of_not_mem (by simp [hb0])]

theorem C10_frame_witness :
    (make_move initial_board 2 3 Player.black).1 = true ∧
    (cellZ initial_board 2 3 = Cell.empty ∧
    cellZ (make_move initial_board 2 3 Player.black).2 2 3 =
      Cell.occ Player.black ∧
    (∀ q ∈ get_flips initial_board 2 3 Player.black,
      cellZ initial_board q.1 q.2 = Cell.occ Player.black.opponent ∧
      cellZ (make_move initial_board 2 3 Player.black).2 q.1 q.2 =
        Cell.occ Player.black) ∧
    (∀ i j : Fin 8, ¬ ((i : ℤ) = 2 ∧ (j : ℤ) = 3) →
      ((i : ℤ), (j : ℤ)) ∉ get_flips initial_board 2 3 Player.black →
      (make_move initial_board 2 3 Player.black).2 i j = initial_board i j) ∧
    (∀ i j : Fin 8,
      (make_move initial_board 2 3 Player.black).2 i j = Cell.empty →
      initial_board i j = Cell.empty) ∧
    (∀ i j : Fin 8, initial_board i j = Cell.occ Player.black →
      (make_move initial_board 2 3 Player.black).2 i j =
        Cell.occ Player.black) ∧
    occupied_count (make_move initial_board 2 3 Player.black).2 =
      occupied_count initial_board + 1) :=
  ⟨by decide, C10_frame initial_board 2 3 Player.black (by decide)⟩
